import Mathlib

/-!
Shallow embedding of the training-batch generator and preprocessing pipeline of
`src/modality.train_CNN.py` (functions `file_generator`, `get_img_data`,
`grab_sagittal`, `resample_slice`, `normalize`, and the axis canonicalization
performed inline in `file_generator`).

Modelling conventions, fixed by the source:
* The script is Python 2 (`except Exception, e:` syntax), so `x_total / 2` and
  `nb_slices / 2` on Python ints are floor divisions; they are embedded as
  `Nat` division.  `np.around` applied to the resulting integer is the
  identity.
* `np.around` / `np.round` on the float array `np.linspace(0,31,32)/32 * N`
  round half to even; the intermediate float values are exact dyadic
  rationals, so the computation is embedded exactly over `ℚ` with an explicit
  round-half-to-even function.
* Array values are IEEE floats that may be NaN (volumes are read from
  arbitrary files); a value is embedded as `Option ℚ` where `none` models a
  non-finite value and arithmetic propagates `none`.  The script runs under
  `np.seterr(all='raise')`, so the division `(slice - m) / st` with `st = 0`
  (the 0/0 invalid operation on a constant slice) raises a
  `FloatingPointError`; fallible operations are embedded in `Option`, with
  `none` for a raised exception.
* Normalized outputs live in `ℝ` (the standard deviation is a square root).
* numpy basic indexing `img[x_idx,:,:]` accepts negative indices down to
  `-len` (wrap-around) and raises `IndexError` otherwise; fancy indexing
  `dSlice[sy,:]` raises on any index `≥ len` (the indices produced by the
  resampler are never negative).
-/

namespace MRI

/-- Round half to even, the rounding used by `np.around` / `np.round`. -/
def roundHalfEven (q : ℚ) : ℤ :=
  if q - ⌊q⌋ < 1/2 then ⌊q⌋
  else if 1/2 < q - ⌊q⌋ then ⌊q⌋ + 1
  else if 2 ∣ ⌊q⌋ then ⌊q⌋ else ⌊q⌋ + 1

theorem roundHalfEven_nonneg {q : ℚ} (hq : 0 ≤ q) : 0 ≤ roundHalfEven q := by
  have h0 : (0 : ℤ) ≤ ⌊q⌋ := by positivity
  unfold roundHalfEven
  split
  · exact h0
  · split
    · omega
    · split
      · exact h0
      · omega

theorem roundHalfEven_le (q : ℚ) : (roundHalfEven q : ℚ) ≤ q + 1/2 := by
  have hfl : (⌊q⌋ : ℚ) ≤ q := Int.floor_le q
  unfold roundHalfEven
  split
  · linarith
  · rename_i h1
    push_neg at h1
    split
    · push_cast
      linarith
    · rename_i h2
      push_neg at h2
      have h3 : q - ⌊q⌋ = 1/2 := le_antisymm h2 h1
      split
      · linarith
      · push_cast
        linarith

theorem roundHalfEven_intCast (n : ℤ) : roundHalfEven (n : ℚ) = n := by
  unfold roundHalfEven
  rw [Int.floor_intCast]
  norm_num

/-- A 2-D array of values of type `α`, with shape `(Ny, Nz)`; `val` is total,
only indices below the bounds are meaningful. -/
structure Slice2D (α : Type) where
  Ny : ℕ
  Nz : ℕ
  val : ℕ → ℕ → α

/-- The elements of a slice in row-major order (all in-bounds positions). -/
def entries {α : Type} (s : Slice2D α) : List α :=
  (List.range s.Ny).flatMap (fun b => (List.range s.Nz).map (fun c => s.val b c))

theorem length_entries {α : Type} (s : Slice2D α) :
    (entries s).length = s.Ny * s.Nz := by
  unfold entries
  induction s.Ny with
  | zero => simp
  | succ k ih =>
    rw [List.range_succ, List.flatMap_append, List.length_append, ih]
    simp [Nat.succ_mul]

theorem mem_entries {α : Type} {s : Slice2D α} {x : α} :
    x ∈ entries s ↔ ∃ b, b < s.Ny ∧ ∃ c, c < s.Nz ∧ x = s.val b c := by
  unfold entries
  simp only [List.mem_flatMap, List.mem_map, List.mem_range]
  constructor
  · rintro ⟨b, hb, c, hc, rfl⟩
    exact ⟨b, hb, c, hc, rfl⟩
  · rintro ⟨b, hb, c, hc, rfl⟩
    exact ⟨b, hb, c, hc, rfl⟩

theorem entries_pointwise {α β : Type} (s : Slice2D α) (g : α → β) :
    entries ⟨s.Ny, s.Nz, fun a b => g (s.val a b)⟩ = (entries s).map g := by
  unfold entries
  rw [List.map_flatMap]
  simp [List.map_map, Function.comp_def]

/-- The gather index used by `resample_slice`: `np.around(i/32 * N)` (cast to
int); the float value `i/32 * N` is the exact rational `i*N/32`. -/
def ssidx (N i : ℕ) : ℕ := (roundHalfEven ((i * N : ℕ) / (32 : ℚ))).toNat

/-- Embedding of `resample_slice`: nearest-index resampling of a `(Ny, Nz)` slice onto the
fixed 32×32 grid, `dSlice[sy,:][:,sz]` with `sy = around(linspace(0,31,32)/32
* Ny)` and `sz` likewise; a gather index `≥ Ny` (resp. `≥ Nz`) raises
`IndexError`, embedded as `none`. -/
def resample_slice {α : Type} (dSlice : Slice2D α) : Option (Slice2D α) :=
  if ((List.range 32).all fun i => decide (ssidx dSlice.Ny i < dSlice.Ny)) &&
     ((List.range 32).all fun i => decide (ssidx dSlice.Nz i < dSlice.Nz)) then
    some ⟨32, 32, fun a b => dSlice.val (ssidx dSlice.Ny a) (ssidx dSlice.Nz b)⟩
  else
    none

/-- A floating-point value read from a volume: `none` models a non-finite
value (NaN/inf), `some q` a finite value embedded exactly. -/
abbrev FVal := Option ℚ

/-- Addition of float values: any non-finite operand makes the result
non-finite (NaN propagates quietly). -/
def fadd : FVal → FVal → FVal
  | some x, some y => some (x + y)
  | _, _ => none

/-- Sum of a list of float values, with NaN propagation. -/
def fsum : List FVal → FVal
  | [] => some 0
  | a :: l => fadd a (fsum l)

/-- The finite values of a list of float values (meaningful when all entries
are finite). -/
def qvals (l : List FVal) : List ℚ := l.map (fun o => o.getD 0)

/-- Embedding of `np.mean` over all elements of a 2-D slice. -/
def fmean (s : Slice2D FVal) : FVal :=
  (fsum (entries s)).map (fun t => t / ((entries s).length : ℚ))

/-- The square of `np.std` over all elements of a 2-D slice: the mean of the
squared deviations from the mean. -/
def fvariance (s : Slice2D FVal) : FVal :=
  (fmean s).bind (fun m =>
    (fsum ((entries s).map (fun x => x.map (fun q => (q - m) ^ 2)))).map
      (fun t => t / ((entries s).length : ℚ)))

/-- Embedding of `normalize`: `(slice_array - m) / st` with `m = np.mean`, `st = np.std`.
Under `np.seterr(all='raise')` a zero standard deviation makes the division
raise `FloatingPointError` (0/0 invalid operation), embedded as `none`; a
non-finite mean or deviation (NaN input) propagates quietly to an all-NaN
output without raising.  A finite output value is the real number
`(x - m) / sqrt v`. -/
noncomputable def normalize (slice_array : Slice2D FVal) : Option (Slice2D (Option ℝ)) :=
  match fmean slice_array, fvariance slice_array with
  | some m, some v =>
    if v = 0 then none
    else some ⟨slice_array.Ny, slice_array.Nz,
      fun a b => (slice_array.val a b).map
        (fun x : ℚ => ((x : ℝ) - (m : ℝ)) / Real.sqrt (v : ℝ))⟩
  | _, _ => some ⟨slice_array.Ny, slice_array.Nz, fun _ _ => none⟩

/-- Mean of the (real) elements of a slice. -/
noncomputable def rmean (s : Slice2D ℝ) : ℝ :=
  (entries s).sum / ((entries s).length : ℝ)

/-- Population variance of the (real) elements of a slice. -/
noncomputable def rvariance (s : Slice2D ℝ) : ℝ :=
  ((entries s).map (fun x => (x - rmean s) ^ 2)).sum / ((entries s).length : ℝ)

/-- Population standard deviation of the (real) elements of a slice. -/
noncomputable def rstd (s : Slice2D ℝ) : ℝ := Real.sqrt (rvariance s)

/-- Read a normalized slice as a real-valued slice (non-finite positions read
as 0; meaningful when every position is finite). -/
def unwrapR (t : Slice2D (Option ℝ)) : Slice2D ℝ :=
  ⟨t.Ny, t.Nz, fun a b => (t.val a b).getD 0⟩

/-- A 3-D array of values of type `α`, shape `(nx, ny, nz)`. -/
structure Volume3D (α : Type) where
  nx : ℕ
  ny : ℕ
  nz : ℕ
  val : ℕ → ℕ → ℕ → α

/-- Embedding of `np.swapaxes(img, 0, 2)`. -/
def swapaxes02 {α : Type} (v : Volume3D α) : Volume3D α :=
  ⟨v.nz, v.ny, v.nx, fun a b c => v.val c b a⟩

/-- Embedding of `img[::-1, ::-1, :]`: reverse the first two axes. -/
def revFirstTwo {α : Type} (v : Volume3D α) : Volume3D α :=
  ⟨v.nx, v.ny, v.nz, fun a b c => v.val (v.nx - 1 - a) (v.ny - 1 - b) c⟩

/-- The axis canonicalization performed inline in `file_generator` (lines
116-117): swap axes 0 and 2, then reverse the first two axes. -/
def canonicalize {α : Type} (v : Volume3D α) : Volume3D α :=
  revFirstTwo (swapaxes02 v)

/-- numpy basic indexing `img[x_idx,:,:]` on the first axis with a Python
int index: indices in `[0, nx)` index directly, indices in `[-nx, 0)` wrap
around, anything else raises `IndexError` (embedded as `none`). -/
def pySliceAt {α : Type} (img : Volume3D α) (x : ℤ) : Option (Slice2D α) :=
  if 0 ≤ x ∧ x < (img.nx : ℤ) then
    some ⟨img.ny, img.nz, fun b c => img.val x.toNat b c⟩
  else if -(img.nx : ℤ) ≤ x ∧ x < 0 then
    some ⟨img.ny, img.nz, fun b c => img.val ((img.nx : ℤ) + x).toNat b c⟩
  else none

/-- Embedding of `x_mid = np.around(x_total / 2).astype(int)`: the script is Python 2, so
`x_total / 2` on ints is floor division and `np.around` of the resulting
integer is the identity. -/
def x_mid (x_total : ℕ) : ℕ := x_total / 2

/-- Embedding of `window = np.round(nb_slices / 2).astype(int)`: Python 2 floor division,
as for `x_mid`. -/
def window (nb_slices : ℕ) : ℕ := nb_slices / 2

/-- The Python `range(a, b)` over ints, as a list. -/
def intRange (a b : ℤ) : List ℤ :=
  (List.range (b - a).toNat).map (fun (i : ℕ) => a + (i : ℤ))

/-- A Python for-loop that appends `f x` for each `x`, aborting the whole
loop when any step raises (embedded as `none`). -/
def traverseOpt {α β : Type} (f : α → Option β) : List α → Option (List β)
  | [] => some []
  | a :: as =>
    match f a with
    | none => none
    | some b => (traverseOpt f as).map (fun bs => b :: bs)

/-- One loop body of `grab_sagittal`: extract the sagittal slice at `x_idx`,
resample it to 32×32, and intensity-normalize it. -/
noncomputable def processSlice (img : Volume3D FVal) (x_idx : ℤ) :
    Option (Slice2D (Option ℝ)) :=
  (pySliceAt img x_idx).bind (fun sl => (resample_slice sl).bind normalize)

/-- Embedding of `grab_sagittal`: process the sagittal slices with indices
in `range(x_mid - window, x_mid + window)`; any raised exception aborts the
call (embedded as `none`).  The `reshape_dimension` step of `get_img_data`
only inserts the trivial channel axis and is identity on content. -/
noncomputable def grab_sagittal (img : Volume3D FVal) (nb_slices : ℕ) :
    Option (List (Slice2D (Option ℝ))) :=
  traverseOpt (fun x_idx => processSlice img x_idx)
    (intRange ((x_mid img.nx : ℤ) - (window nb_slices : ℤ))
              ((x_mid img.nx : ℤ) + (window nb_slices : ℤ)))

/-- Lines 119-121 of `file_generator`: clamp the requested slice count to the
volume's sagittal extent. -/
def clampSlices (nb_slices x : ℕ) : ℕ := if nb_slices > x then x else nb_slices

theorem clampSlices_eq_min (n x : ℕ) : clampSlices n x = min n x := by
  unfold clampSlices
  split <;> omega

/-- Embedding of `np_utils.to_categorical([mod], nb_mods)` for one label: a
zero row of width `nb_mods` with position `mod` set to 1. -/
def to_categorical (mod nb_mods : ℕ) : List ℚ :=
  (List.replicate nb_mods (0 : ℚ)).set mod 1

/-- A row is one-hot: exactly one entry equals 1 and every entry is 0 or 1. -/
def isOneHot (row : List ℚ) : Prop :=
  row.count 1 = 1 ∧ ∀ x ∈ row, x = 0 ∨ x = 1

/-- The mutable state of `file_generator` while filling one batch: the fill
position `n` and the buffers `X` (processed slices, row `i` holding the
`(1, 32, 32)` slice at batch position `i`) and `Y` (one-hot label rows). -/
structure GenState where
  n : ℕ
  X : ℕ → Slice2D (Option ℝ)
  Y : ℕ → List ℚ

/-- numpy slice assignment `A[start : start + rows.length] = rows` on an
array modelled as a function from indices. -/
def updRange {β : Type} (f : ℕ → β) (start : ℕ) (rows : List β) : ℕ → β :=
  fun i => if start ≤ i ∧ i < start + rows.length then rows.getD (i - start) (f i) else f i

/-- Embedding of `np.all(np.isfinite(data))` over a stacked list of slices. -/
def allFinite (data : List (Slice2D (Option ℝ))) : Bool :=
  data.all (fun sl => (entries sl).all (fun v => v.isSome))

/-- One random draw of `file_generator`: the drawn record's parsed modality
label and the outcome of `nib.load(f).get_data()` on its path (`none` when
the load, or the parse of the record, raises). -/
structure Draw where
  mod : ℕ
  load : Option (Volume3D FVal)

/-- One iteration of the inner `while n < nb_step` loop of `file_generator`
(lines 97-152), processing one draw.  Every failure path (record filtered
out, load raised, extraction/resampling/normalization raised, non-finite
values in the candidate sub-batch) leaves the state unchanged; a successful
draw writes the taken slices and label rows and advances `n` by the full
sub-batch length (the code increments by `nb_slices` even when truncating). -/
noncomputable def genStepData (nb_step nb_mods : ℕ) (s : GenState) (mod : ℕ)
    (data : List (Slice2D (Option ℝ))) : GenState :=
  if allFinite data then
    { n := s.n + data.length
    , X := updRange s.X s.n
        (if nb_step - s.n < data.length then data.take (nb_step - s.n) else data)
    , Y := updRange s.Y s.n
        (List.replicate
          (if nb_step - s.n < data.length then nb_step - s.n else data.length)
          (to_categorical mod nb_mods)) }
  else s

/-- Lines 113-148 of `file_generator` after a successful load: canonicalize
the axes, clamp the requested 30 slices to the extent, extract (lines
123-127 catch a raising extraction and discard the draw), check finiteness,
and write the taken slices into the buffers. -/
noncomputable def genStepLoaded (nb_step nb_mods : ℕ) (s : GenState) (mod : ℕ)
    (img0 : Volume3D FVal) : GenState :=
  match grab_sagittal (canonicalize img0) (clampSlices 30 (canonicalize img0).nx) with
  | none => s
  | some data => genStepData nb_step nb_mods s mod data

noncomputable def genStep (nb_step nb_mods : ℕ) (s : GenState) (d : Draw) : GenState :=
  if d.mod < nb_mods then
    match d.load with
    | none => s
    | some img0 => genStepLoaded nb_step nb_mods s d.mod img0
  else s

/-- The inner `while n < nb_step` loop of `file_generator`, consuming a list
of draws: it stops (and the surrounding loop emits the batch) as soon as
`n ≥ nb_step`; if the supplied draws are exhausted first, no batch is
emitted (`none`) — the real generator would keep drawing. -/
noncomputable def fillLoop (nb_step nb_mods : ℕ) (s : GenState) : List Draw → Option GenState
  | [] => if s.n < nb_step then none else some s
  | d :: ds =>
    if s.n < nb_step then fillLoop nb_step nb_mods (genStep nb_step nb_mods s d) ds
    else some s

/-- The freshly allocated buffers `X = np.zeros((nb_step, 1, 32, 32))` and
`Y = np.zeros((nb_step, nb_mods))` with fill position 0. -/
def initState (nb_mods : ℕ) : GenState :=
  { n := 0
  , X := fun _ => ⟨32, 32, fun _ _ => some 0⟩
  , Y := fun _ => List.replicate nb_mods (0 : ℚ) }

/-- The `X` component of the emitted batch: the `nb_step` rows of the `X`
buffer. -/
def batchX (nb_step : ℕ) (s : GenState) : List (Slice2D (Option ℝ)) :=
  (List.range nb_step).map s.X

/-- The `Y` component of the emitted batch: the `nb_step` rows of the `Y`
buffer. -/
def batchY (nb_step : ℕ) (s : GenState) : List (List ℚ) :=
  (List.range nb_step).map s.Y

theorem ssidx_lt {N : ℕ} (hN : 17 ≤ N) {i : ℕ} (hi : i < 32) : ssidx N i < N := by
  have hq : (((i * N : ℕ) : ℚ) / 32) ≤ (31 * N : ℚ) / 32 := by
    have : ((i * N : ℕ) : ℚ) ≤ (31 * N : ℚ) := by
      push_cast
      have : (i : ℚ) ≤ 31 := by exact_mod_cast Nat.le_of_lt_succ hi
      nlinarith [show (0:ℚ) ≤ (N:ℚ) from by positivity]
    linarith
  have hlt : ((roundHalfEven (((i * N : ℕ) : ℚ) / 32) : ℤ) : ℚ) < (N : ℚ) := by
    have h1 := roundHalfEven_le (((i * N : ℕ) : ℚ) / 32)
    have h17 : (17 : ℚ) ≤ (N : ℚ) := by exact_mod_cast hN
    linarith
  have hlt2 : roundHalfEven (((i * N : ℕ) : ℚ) / 32) < (N : ℤ) := by exact_mod_cast hlt
  have hnn : 0 ≤ roundHalfEven (((i * N : ℕ) : ℚ) / 32) :=
    roundHalfEven_nonneg (by positivity)
  unfold ssidx
  omega

theorem ssidx_32 (i : ℕ) : ssidx 32 i = i := by
  unfold ssidx
  have h1 : ((i * 32 : ℕ) : ℚ) / 32 = ((i : ℤ) : ℚ) := by
    push_cast
    field_simp
  rw [h1, roundHalfEven_intCast]
  exact Int.toNat_natCast i

theorem resample_some_of_ge17 {α : Type} (s : Slice2D α) (h1 : 17 ≤ s.Ny) (h2 : 17 ≤ s.Nz) :
    resample_slice s = some ⟨32, 32, fun a b => s.val (ssidx s.Ny a) (ssidx s.Nz b)⟩ := by
  unfold resample_slice
  rw [if_pos]
  rw [Bool.and_eq_true]
  constructor
  · rw [List.all_eq_true]
    intro i hi
    exact decide_eq_true (ssidx_lt h1 (List.mem_range.1 hi))
  · rw [List.all_eq_true]
    intro i hi
    exact decide_eq_true (ssidx_lt h2 (List.mem_range.1 hi))

theorem resample_shape {α : Type} {s t : Slice2D α} (h : resample_slice s = some t) :
    t.Ny = 32 ∧ t.Nz = 32 := by
  unfold resample_slice at h
  split at h
  · simp only [Option.some.injEq] at h
    subst h
    exact ⟨by trivial, by trivial⟩
  · cases h

theorem resample_id {α : Type} (s : Slice2D α) (h1 : s.Ny = 32) (h2 : s.Nz = 32) :
    resample_slice s = some s := by
  obtain ⟨Ny, Nz, v⟩ := s
  simp only at h1 h2
  subst h1
  subst h2
  unfold resample_slice
  rw [if_pos]
  · simp only [Option.some.injEq, Slice2D.mk.injEq]
    refine ⟨by trivial, by trivial, ?_⟩
    funext a b
    simp only [ssidx_32]
  · rw [Bool.and_eq_true]
    constructor <;>
    · rw [List.all_eq_true]
      intro i hi
      exact decide_eq_true (by simpa [ssidx_32] using List.mem_range.1 hi)
/-- The exact value of `np.mean` on an all-finite slice. -/
def qmean (s : Slice2D FVal) : ℚ :=
  (qvals (entries s)).sum / ((entries s).length : ℚ)

/-- The exact value of the squared `np.std` on an all-finite slice. -/
def qvar (s : Slice2D FVal) : ℚ :=
  ((qvals (entries s)).map (fun q => (q - qmean s) ^ 2)).sum / ((entries s).length : ℚ)

theorem fsum_eq_sum {l : List FVal} (h : ∀ x ∈ l, x.isSome) :
    fsum l = some (qvals l).sum := by
  induction l with
  | nil => simp [fsum, qvals]
  | cons a l ih =>
    obtain ⟨x, rfl⟩ := Option.isSome_iff_exists.1 (h a (List.mem_cons_self a l))
    rw [show fsum (some x :: l) = fadd (some x) (fsum l) from rfl]
    rw [ih (fun y hy => h y (List.mem_cons_of_mem _ hy))]
    simp [fadd, qvals]

theorem qvals_length (l : List FVal) : (qvals l).length = l.length := by
  simp [qvals]

theorem fmean_eq {s : Slice2D FVal} (h : ∀ x ∈ entries s, x.isSome) :
    fmean s = some (qmean s) := by
  unfold fmean qmean
  rw [fsum_eq_sum h]
  rfl

theorem fvariance_eq {s : Slice2D FVal} (h : ∀ x ∈ entries s, x.isSome) :
    fvariance s = some (qvar s) := by
  unfold fvariance
  rw [fmean_eq h]
  have hsome : ∀ x ∈ (entries s).map (fun x => x.map (fun q => (q - qmean s) ^ 2)), x.isSome := by
    intro x hx
    obtain ⟨y, hy, rfl⟩ := List.mem_map.1 hx
    obtain ⟨z, rfl⟩ := Option.isSome_iff_exists.1 (h y hy)
    rfl
  rw [Option.some_bind, fsum_eq_sum hsome]
  have hq : qvals ((entries s).map (fun x => x.map (fun q => (q - qmean s) ^ 2))) =
      (qvals (entries s)).map (fun q => (q - qmean s) ^ 2) := by
    unfold qvals
    rw [List.map_map, List.map_map]
    apply List.map_congr_left
    intro x hx
    obtain ⟨z, rfl⟩ := Option.isSome_iff_exists.1 (h x hx)
    rfl
  rw [hq]
  rfl

theorem qvar_nonneg (s : Slice2D FVal) : 0 ≤ qvar s := by
  unfold qvar
  apply div_nonneg
  · apply List.sum_nonneg
    intro x hx
    obtain ⟨q, hq, rfl⟩ := List.mem_map.1 hx
    positivity
  · positivity

theorem qvar_eq_zero_imp {s : Slice2D FVal} (hv : qvar s = 0) :
    ∀ q ∈ qvals (entries s), q = qmean s := by
  intro q hq
  rcases Nat.eq_zero_or_pos (entries s).length with hN | hN
  · rw [List.length_eq_zero] at hN
    rw [hN] at hq
    simp [qvals] at hq
  · unfold qvar at hv
    rw [div_eq_zero_iff] at hv
    have hN2 : ((entries s).length : ℚ) ≠ 0 := by positivity
    have hsum : ((qvals (entries s)).map (fun q => (q - qmean s) ^ 2)).sum = 0 := by
      tauto
    have hterm : (q - qmean s) ^ 2 = 0 := by
      have hmem : (q - qmean s) ^ 2 ∈ (qvals (entries s)).map (fun q => (q - qmean s) ^ 2) :=
        List.mem_map.2 ⟨q, hq, rfl⟩
      have hle : (q - qmean s) ^ 2 ≤ 0 := hsum ▸ List.single_le_sum (fun x hx => by
        obtain ⟨r, hr, rfl⟩ := List.mem_map.1 hx
        positivity) _ hmem
      nlinarith [sq_nonneg (q - qmean s)]
    have hz := sq_eq_zero_iff.1 hterm
    linarith [sub_eq_zero.1 hz]
theorem normalize_reduced {s : Slice2D FVal} (h : ∀ x ∈ entries s, x.isSome) :
    normalize s = if qvar s = 0 then none
      else some ⟨s.Ny, s.Nz,
        fun a b => (s.val a b).map
          (fun x : ℚ => ((x : ℝ) - ((qmean s : ℚ) : ℝ)) / Real.sqrt ((qvar s : ℚ) : ℝ))⟩ := by
  unfold normalize
  rw [fmean_eq h, fvariance_eq h]

theorem normalize_of_ne {s : Slice2D FVal} (h : ∀ x ∈ entries s, x.isSome)
    (hv : qvar s ≠ 0) :
    normalize s = some ⟨s.Ny, s.Nz,
      fun a b => (s.val a b).map
        (fun x : ℚ => ((x : ℝ) - ((qmean s : ℚ) : ℝ)) / Real.sqrt ((qvar s : ℚ) : ℝ))⟩ := by
  rw [normalize_reduced h, if_neg hv]

theorem normalize_of_eq {s : Slice2D FVal} (h : ∀ x ∈ entries s, x.isSome)
    (hv : qvar s = 0) : normalize s = none := by
  rw [normalize_reduced h, if_pos hv]

theorem qmean_const {s : Slice2D FVal} {c : ℚ} (hc : ∀ x ∈ entries s, x = some c)
    (hN : (entries s).length ≠ 0) : qmean s = c := by
  have hq : ∀ q ∈ qvals (entries s), q = c := by
    intro q hq
    obtain ⟨o, ho, rfl⟩ := List.mem_map.1 hq
    rw [hc o ho]
    rfl
  unfold qmean
  rw [List.sum_eq_card_nsmul _ c hq, qvals_length, nsmul_eq_mul]
  have hN2 : ((entries s).length : ℚ) ≠ 0 := Nat.cast_ne_zero.2 hN
  field_simp

theorem qvar_const {s : Slice2D FVal} {c : ℚ} (hc : ∀ x ∈ entries s, x = some c) :
    qvar s = 0 := by
  rcases Nat.eq_zero_or_pos (entries s).length with hN | hN
  · rw [List.length_eq_zero] at hN
    unfold qvar qvals
    rw [hN]
    simp
  · have hm := qmean_const hc (by omega)
    unfold qvar
    have hz : ∀ q ∈ (qvals (entries s)).map (fun q => (q - qmean s) ^ 2), q = 0 := by
      intro q hq
      obtain ⟨r, hr, rfl⟩ := List.mem_map.1 hq
      obtain ⟨o, ho, rfl⟩ := List.mem_map.1 hr
      rw [hc o ho]
      simp [hm, Option.getD]
    rw [List.sum_eq_card_nsmul _ 0 hz]
    simp

theorem entries_isSome_of_const {s : Slice2D FVal} {c : ℚ}
    (hc : ∀ x ∈ entries s, x = some c) : ∀ x ∈ entries s, x.isSome := by
  intro x hx
  rw [hc x hx]
  rfl

theorem normalize_none_of_const {s : Slice2D FVal} {c : ℚ}
    (hc : ∀ x ∈ entries s, x = some c) : normalize s = none :=
  normalize_of_eq (entries_isSome_of_const hc) (qvar_const hc)

theorem qvar_ne_zero {s : Slice2D FVal} {x y : FVal}
    (hx : x ∈ entries s) (hy : y ∈ entries s) (hxy : x ≠ y)
    (h : ∀ x ∈ entries s, x.isSome) : qvar s ≠ 0 := by
  intro hv
  have himp := qvar_eq_zero_imp hv
  obtain ⟨qx, hqx⟩ := Option.isSome_iff_exists.1 (h x hx)
  obtain ⟨qy, hqy⟩ := Option.isSome_iff_exists.1 (h y hy)
  have h1 : qx = qmean s := himp qx (by
    apply List.mem_map.2
    exact ⟨x, hx, by rw [hqx]; rfl⟩)
  have h2 : qy = qmean s := himp qy (by
    apply List.mem_map.2
    exact ⟨y, hy, by rw [hqy]; rfl⟩)
  exact hxy (by rw [hqx, hqy, h1, h2])
theorem sum_map_sub_const (L : List ℚ) (c : ℝ) :
    (L.map (fun q => ((q : ℚ) : ℝ) - c)).sum = ((L.sum : ℚ) : ℝ) - L.length * c := by
  induction L with
  | nil => simp
  | cons a L ih =>
    simp only [List.map_cons, List.sum_cons, ih, List.length_cons]
    push_cast
    ring

theorem sum_map_mul_const (L : List ℚ) (f : ℚ → ℝ) (r : ℝ) :
    (L.map (fun q => f q * r)).sum = (L.map f).sum * r := by
  induction L with
  | nil => simp
  | cons a L ih =>
    simp only [List.map_cons, List.sum_cons, ih]
    ring

theorem cast_sum_sq (L : List ℚ) (m : ℚ) :
    (L.map (fun q => (((q : ℚ) : ℝ) - ((m : ℚ) : ℝ)) ^ 2)).sum =
      (((L.map (fun q => (q - m) ^ 2)).sum : ℚ) : ℝ) := by
  induction L with
  | nil => simp
  | cons a L ih =>
    simp only [List.map_cons, List.sum_cons, ih]
    push_cast
    ring

theorem entries_unwrap_map {s : Slice2D FVal} (hf : ∀ x ∈ entries s, x.isSome)
    (f : ℚ → ℝ) :
    entries (unwrapR ⟨s.Ny, s.Nz, fun a b => (s.val a b).map f⟩) =
      (qvals (entries s)).map f := by
  have h1 : entries (unwrapR ⟨s.Ny, s.Nz, fun a b => (s.val a b).map f⟩) =
      (entries s).map (fun o => (o.map f).getD 0) := by
    exact entries_pointwise s (fun o => (o.map f).getD 0)
  rw [h1]
  unfold qvals
  rw [List.map_map]
  apply List.map_congr_left
  intro x hx
  obtain ⟨q, rfl⟩ := Option.isSome_iff_exists.1 (hf x hx)
  rfl

theorem entries_length_ne_zero_of_qvar {s : Slice2D FVal} (hv : qvar s ≠ 0) :
    (entries s).length ≠ 0 := by
  intro h0
  rw [List.length_eq_zero] at h0
  apply hv
  unfold qvar qvals
  rw [h0]
  simp
theorem qvals_sum_eq {s : Slice2D FVal} (hN : (entries s).length ≠ 0) :
    (qvals (entries s)).sum = ((entries s).length : ℚ) * qmean s := by
  have hN2 : ((entries s).length : ℚ) ≠ 0 := Nat.cast_ne_zero.2 hN
  unfold qmean
  field_simp

theorem sq_sum_eq {s : Slice2D FVal} (hN : (entries s).length ≠ 0) :
    ((qvals (entries s)).map (fun q => (q - qmean s) ^ 2)).sum =
      ((entries s).length : ℚ) * qvar s := by
  have hN2 : ((entries s).length : ℚ) ≠ 0 := Nat.cast_ne_zero.2 hN
  unfold qvar
  field_simp

theorem rmean_norm {s : Slice2D FVal} (hf : ∀ x ∈ entries s, x.isSome)
    (hv : qvar s ≠ 0) :
    rmean (unwrapR ⟨s.Ny, s.Nz, fun a b => (s.val a b).map
      (fun x : ℚ => ((x : ℝ) - ((qmean s : ℚ) : ℝ)) / Real.sqrt ((qvar s : ℚ) : ℝ))⟩) = 0 := by
  have hN : (entries s).length ≠ 0 := entries_length_ne_zero_of_qvar hv
  have hents := entries_unwrap_map hf
    (fun x : ℚ => ((x : ℝ) - ((qmean s : ℚ) : ℝ)) / Real.sqrt ((qvar s : ℚ) : ℝ))
  unfold rmean
  rw [hents, List.length_map, qvals_length]
  have hrw : ((qvals (entries s)).map
      (fun x : ℚ => ((x : ℝ) - ((qmean s : ℚ) : ℝ)) / Real.sqrt ((qvar s : ℚ) : ℝ))) =
      ((qvals (entries s)).map
        (fun x : ℚ => ((x : ℝ) - ((qmean s : ℚ) : ℝ)) * (Real.sqrt ((qvar s : ℚ) : ℝ))⁻¹)) := by
    simp [div_eq_mul_inv]
  rw [hrw, sum_map_mul_const, sum_map_sub_const, qvals_length, qvals_sum_eq hN]
  push_cast
  ring_nf

theorem rvariance_norm {s : Slice2D FVal} (hf : ∀ x ∈ entries s, x.isSome)
    (hv : qvar s ≠ 0) :
    rvariance (unwrapR ⟨s.Ny, s.Nz, fun a b => (s.val a b).map
      (fun x : ℚ => ((x : ℝ) - ((qmean s : ℚ) : ℝ)) / Real.sqrt ((qvar s : ℚ) : ℝ))⟩) = 1 := by
  have hN : (entries s).length ≠ 0 := entries_length_ne_zero_of_qvar hv
  have hN2 : ((entries s).length : ℝ) ≠ 0 := Nat.cast_ne_zero.2 hN
  have hvnn : (0 : ℝ) ≤ ((qvar s : ℚ) : ℝ) := by
    exact_mod_cast qvar_nonneg s
  have hv2 : ((qvar s : ℚ) : ℝ) ≠ 0 := by
    exact_mod_cast hv
  have hents := entries_unwrap_map hf
    (fun x : ℚ => ((x : ℝ) - ((qmean s : ℚ) : ℝ)) / Real.sqrt ((qvar s : ℚ) : ℝ))
  unfold rvariance
  rw [rmean_norm hf hv, hents, List.length_map, qvals_length, List.map_map]
  have hcomp : ((fun x => (x - 0) ^ 2) ∘
      (fun x : ℚ => ((x : ℝ) - ((qmean s : ℚ) : ℝ)) / Real.sqrt ((qvar s : ℚ) : ℝ))) =
      fun q : ℚ => (((q : ℝ) - ((qmean s : ℚ) : ℝ)) ^ 2) * (((qvar s : ℚ) : ℝ))⁻¹ := by
    funext q
    rw [Function.comp_apply, sub_zero, div_pow, Real.sq_sqrt hvnn, div_eq_mul_inv]
  rw [hcomp, sum_map_mul_const, cast_sum_sq, sq_sum_eq hN]
  push_cast
  field_simp

theorem rstd_norm {s : Slice2D FVal} (hf : ∀ x ∈ entries s, x.isSome)
    (hv : qvar s ≠ 0) :
    rstd (unwrapR ⟨s.Ny, s.Nz, fun a b => (s.val a b).map
      (fun x : ℚ => ((x : ℝ) - ((qmean s : ℚ) : ℝ)) / Real.sqrt ((qvar s : ℚ) : ℝ))⟩) = 1 := by
  unfold rstd
  rw [rvariance_norm hf hv]
  exact Real.sqrt_one
theorem canonicalize_val {α : Type} (v : Volume3D α) (a b c : ℕ) :
    (canonicalize v).val a b c = v.val c (v.ny - 1 - b) (v.nz - 1 - a) := rfl

theorem canonicalize_shape {α : Type} (v : Volume3D α) :
    (canonicalize v).nx = v.nz ∧ (canonicalize v).ny = v.ny ∧ (canonicalize v).nz = v.nx :=
  ⟨rfl, rfl, rfl⟩

theorem intRange_length (a b : ℤ) : (intRange a b).length = (b - a).toNat := by
  unfold intRange
  rw [List.length_map, List.length_range]

theorem mem_intRange {a b x : ℤ} : x ∈ intRange a b ↔ a ≤ x ∧ x < b := by
  unfold intRange
  simp only [List.mem_map, List.mem_range]
  constructor
  · rintro ⟨i, hi, rfl⟩
    constructor
    · omega
    · omega
  · intro ⟨h1, h2⟩
    exact ⟨(x - a).toNat, by omega, by omega⟩

theorem traverseOpt_length {α β : Type} {f : α → Option β} :
    ∀ {l : List α} {l2 : List β}, traverseOpt f l = some l2 → l2.length = l.length := by
  intro l
  induction l with
  | nil =>
    intro l2 h
    simp [traverseOpt] at h
    rw [h]
    rfl
  | cons a as ih =>
    intro l2 h
    rw [show traverseOpt f (a :: as) =
        (match f a with
         | none => none
         | some b => (traverseOpt f as).map (fun bs => b :: bs)) from rfl] at h
    cases hfa : f a with
    | none => rw [hfa] at h; cases h
    | some b =>
      rw [hfa] at h
      cases hrec : traverseOpt f as with
      | none => rw [hrec] at h; cases h
      | some bs =>
        rw [hrec] at h
        simp only [Option.map_some'] at h
        injection h with h2
        rw [← h2]
        simp [ih hrec]

theorem traverseOpt_forall {α β : Type} {f : α → Option β} :
    ∀ {l : List α} {l2 : List β}, traverseOpt f l = some l2 →
      ∀ a ∈ l, ∃ b, f a = some b := by
  intro l
  induction l with
  | nil => intro l2 h a ha; cases ha
  | cons a as ih =>
    intro l2 h x hx
    rw [show traverseOpt f (a :: as) =
        (match f a with
         | none => none
         | some b => (traverseOpt f as).map (fun bs => b :: bs)) from rfl] at h
    cases hfa : f a with
    | none => rw [hfa] at h; cases h
    | some b =>
      rw [hfa] at h
      cases hrec : traverseOpt f as with
      | none => rw [hrec] at h; cases h
      | some bs =>
        rcases List.mem_cons.1 hx with rfl | hmem
        · exact ⟨b, hfa⟩
        · exact ih hrec x hmem

theorem grab_sagittal_length {img : Volume3D FVal} {k : ℕ}
    {l : List (Slice2D (Option ℝ))} (h : grab_sagittal img k = some l) :
    l.length = 2 * (k / 2) := by
  have h1 := traverseOpt_length h
  rw [h1, intRange_length]
  unfold window
  omega

theorem window_le_x_mid {n x : ℕ} : window (clampSlices n x) ≤ x_mid x := by
  unfold window x_mid clampSlices
  split <;> omega

theorem x_mid_add_window_le {n x : ℕ} : x_mid x + window (clampSlices n x) ≤ x := by
  unfold window x_mid clampSlices
  split <;> omega
theorem getD_replicate {β : Type} (a d : β) :
    ∀ {n i : ℕ}, i < n → (List.replicate n a).getD i d = a := by
  intro n
  induction n with
  | zero => intro i h; omega
  | succ k ih =>
    intro i h
    rw [List.replicate_succ]
    cases i with
    | zero => rfl
    | succ j => exact ih (show j < k by omega)

theorem isOneHot_to_categorical : ∀ {nb m : ℕ}, m < nb →
    isOneHot (to_categorical m nb) := by
  intro nb
  induction nb with
  | zero => intro m h; omega
  | succ k ih =>
    intro m h
    unfold to_categorical at ih ⊢
    rw [List.replicate_succ]
    cases m with
    | zero =>
      rw [List.set_cons_zero]
      constructor
      · rw [List.count_cons_self, List.count_replicate]
        norm_num
      · intro x hx
        rcases List.mem_cons.1 hx with rfl | hmem
        · right; rfl
        · left; exact List.eq_of_mem_replicate hmem
    | succ j =>
      rw [List.set_cons_succ]
      obtain ⟨ih1, ih2⟩ := @ih j (show j < k by omega)
      constructor
      · rw [List.count_cons_of_ne (by norm_num), ih1]
      · intro x hx
        rcases List.mem_cons.1 hx with rfl | hmem
        · left; rfl
        · exact ih2 x hmem

/-- The rows of `Y` already filled (positions below `min n nb_step`) are
one-hot encodings of in-range labels of draws in `D`. -/
def rowsOK (nb_step nb_mods : ℕ) (D : List Draw) (s : GenState) : Prop :=
  ∀ i, i < min s.n nb_step →
    ∃ m, m < nb_mods ∧ (∃ d ∈ D, d.mod = m) ∧ s.Y i = to_categorical m nb_mods

theorem updRange_lt {β : Type} (f : ℕ → β) (start : ℕ) (rows : List β) (i : ℕ)
    (h : i < start) : updRange f start rows i = f i := by
  unfold updRange
  rw [if_neg]
  omega

theorem updRange_mem {β : Type} (f : ℕ → β) (start : ℕ) (rows : List β) (i : ℕ)
    (h1 : start ≤ i) (h2 : i < start + rows.length) :
    updRange f start rows i = rows.getD (i - start) (f i) := by
  unfold updRange
  rw [if_pos]
  exact ⟨h1, h2⟩

theorem genStepData_rowsOK {nb_step nb_mods : ℕ} {D : List Draw} {s : GenState}
    {mod : ℕ} {data : List (Slice2D (Option ℝ))} (hd : ∃ d ∈ D, d.mod = mod)
    (hmod : mod < nb_mods) (h : rowsOK nb_step nb_mods D s) :
    rowsOK nb_step nb_mods D (genStepData nb_step nb_mods s mod data) := by
  unfold genStepData
  split
  case isFalse => exact h
  case isTrue hfin =>
    intro i hi
    simp only at hi ⊢
    by_cases hcase : i < s.n
    · obtain ⟨m, hm1, hm2, hm3⟩ := h i (by omega)
      refine ⟨m, hm1, hm2, ?_⟩
      rw [updRange_lt _ _ _ _ hcase]
      exact hm3
    · refine ⟨mod, hmod, hd, ?_⟩
      have hi2 : i - s.n <
          (if nb_step - s.n < data.length then nb_step - s.n else data.length) := by
        split <;> omega
      have hup := updRange_mem s.Y s.n
        (List.replicate (if nb_step - s.n < data.length then nb_step - s.n else data.length)
          (to_categorical mod nb_mods)) i (by omega)
        (by rw [List.length_replicate]; omega)
      rw [hup, getD_replicate _ _ hi2]

theorem genStep_rowsOK {nb_step nb_mods : ℕ} {D : List Draw} {s : GenState} {d : Draw}
    (hd : d ∈ D) (h : rowsOK nb_step nb_mods D s) :
    rowsOK nb_step nb_mods D (genStep nb_step nb_mods s d) := by
  unfold genStep
  split
  case isFalse => exact h
  case isTrue hmod =>
    cases hload : d.load with
    | none => exact h
    | some img0 =>
      show rowsOK nb_step nb_mods D (genStepLoaded nb_step nb_mods s d.mod img0)
      unfold genStepLoaded
      cases grab_sagittal (canonicalize img0) (clampSlices 30 (canonicalize img0).nx) with
      | none => exact h
      | some data => exact genStepData_rowsOK ⟨d, hd, rfl⟩ hmod h

theorem fillLoop_inv {nb_step nb_mods : ℕ} {D : List Draw} :
    ∀ {ds : List Draw} {s s2 : GenState}, (∀ d ∈ ds, d ∈ D) →
      rowsOK nb_step nb_mods D s → fillLoop nb_step nb_mods s ds = some s2 →
      rowsOK nb_step nb_mods D s2 ∧ nb_step ≤ s2.n := by
  intro ds
  induction ds with
  | nil =>
    intro s s2 hsub hok h
    rw [show fillLoop nb_step nb_mods s [] =
        (if s.n < nb_step then none else some s) from rfl] at h
    split at h
    · cases h
    · cases h
      exact ⟨hok, by omega⟩
  | cons d ds ih =>
    intro s s2 hsub hok h
    rw [show fillLoop nb_step nb_mods s (d :: ds) =
        (if s.n < nb_step then fillLoop nb_step nb_mods (genStep nb_step nb_mods s d) ds
         else some s) from rfl] at h
    split at h
    · exact ih (fun x hx => hsub x (List.mem_cons_of_mem _ hx))
        (genStep_rowsOK (hsub d (List.mem_cons_self d ds)) hok) h
    · cases h
      exact ⟨hok, by omega⟩
theorem genStep_filtered {nb_step nb_mods : ℕ} {s : GenState} {d : Draw}
    (h : nb_mods ≤ d.mod) : genStep nb_step nb_mods s d = s := by
  unfold genStep
  rw [if_neg]
  omega

theorem genStep_load_none {nb_step nb_mods : ℕ} {s : GenState} {d : Draw}
    (h : d.load = none) : genStep nb_step nb_mods s d = s := by
  unfold genStep
  rw [h]
  split <;> rfl

theorem genStep_grab_none {nb_step nb_mods : ℕ} {s : GenState} {d : Draw}
    {img0 : Volume3D FVal} (h1 : d.load = some img0)
    (h2 : grab_sagittal (canonicalize img0) (clampSlices 30 (canonicalize img0).nx) = none) :
    genStep nb_step nb_mods s d = s := by
  unfold genStep
  rw [h1]
  split
  · show genStepLoaded nb_step nb_mods s d.mod img0 = s
    unfold genStepLoaded
    rw [h2]
  · rfl

theorem genStep_nonfinite {nb_step nb_mods : ℕ} {s : GenState} {d : Draw}
    {img0 : Volume3D FVal} {data : List (Slice2D (Option ℝ))} (h1 : d.load = some img0)
    (h2 : grab_sagittal (canonicalize img0) (clampSlices 30 (canonicalize img0).nx) = some data)
    (h3 : allFinite data = false) :
    genStep nb_step nb_mods s d = s := by
  unfold genStep
  rw [h1]
  split
  · show genStepLoaded nb_step nb_mods s d.mod img0 = s
    unfold genStepLoaded
    rw [h2]
    show genStepData nb_step nb_mods s d.mod data = s
    unfold genStepData
    rw [if_neg]
    rw [h3]
    simp
  · rfl

theorem fillLoop_cons_eq (nb_step nb_mods : ℕ) (s : GenState) (d : Draw) (ds : List Draw) :
    fillLoop nb_step nb_mods s (d :: ds) =
      if s.n < nb_step then fillLoop nb_step nb_mods (genStep nb_step nb_mods s d) ds
      else some s := rfl

theorem fillLoop_skip {nb_step nb_mods : ℕ} {s : GenState} {d : Draw}
    (hlt : s.n < nb_step) (hstep : genStep nb_step nb_mods s d = s) (ds : List Draw) :
    fillLoop nb_step nb_mods s (d :: ds) = fillLoop nb_step nb_mods s ds := by
  rw [fillLoop_cons_eq, if_pos hlt, hstep]

theorem traverseOpt_some_of_forall {α β : Type} {f : α → Option β} :
    ∀ {l : List α}, (∀ a ∈ l, ∃ b, f a = some b) → ∃ l2, traverseOpt f l = some l2 := by
  intro l
  induction l with
  | nil => intro _; exact ⟨[], rfl⟩
  | cons a as ih =>
    intro h
    obtain ⟨b, hb⟩ := h a (List.mem_cons_self a as)
    obtain ⟨bs, hbs⟩ := ih (fun x hx => h x (List.mem_cons_of_mem _ hx))
    refine ⟨b :: bs, ?_⟩
    rw [show traverseOpt f (a :: as) =
        (match f a with
         | none => none
         | some b => (traverseOpt f as).map (fun bs => b :: bs)) from rfl]
    rw [hb, hbs]
    rfl

theorem traverseOpt_mem_rel {α β : Type} {f : α → Option β} :
    ∀ {l : List α} {l2 : List β}, traverseOpt f l = some l2 →
      ∀ b ∈ l2, ∃ a ∈ l, f a = some b := by
  intro l
  induction l with
  | nil =>
    intro l2 h b hb
    simp [traverseOpt] at h
    rw [h] at hb
    cases hb
  | cons a as ih =>
    intro l2 h b hb
    rw [show traverseOpt f (a :: as) =
        (match f a with
         | none => none
         | some b => (traverseOpt f as).map (fun bs => b :: bs)) from rfl] at h
    cases hfa : f a with
    | none => rw [hfa] at h; cases h
    | some c =>
      rw [hfa] at h
      cases hrec : traverseOpt f as with
      | none => rw [hrec] at h; cases h
      | some bs =>
        rw [hrec] at h
        simp only [Option.map_some'] at h
        injection h with h2
        rw [← h2] at hb
        rcases List.mem_cons.1 hb with rfl | hmem
        · exact ⟨a, List.mem_cons_self a as, hfa⟩
        · obtain ⟨x, hx1, hx2⟩ := ih hrec b hmem
          exact ⟨x, List.mem_cons_of_mem _ hx1, hx2⟩
theorem roundHalfEven_of_lt (q : ℚ) (f : ℤ) (hf : ⌊q⌋ = f) (h : q - (f : ℚ) < 1/2) :
    roundHalfEven q = f := by
  unfold roundHalfEven
  rw [hf, if_pos h]

theorem roundHalfEven_of_gt (q : ℚ) (f : ℤ) (hf : ⌊q⌋ = f) (h : 1/2 < q - (f : ℚ)) :
    roundHalfEven q = f + 1 := by
  unfold roundHalfEven
  rw [hf, if_neg (by linarith), if_pos h]

theorem roundHalfEven_of_half_odd (q : ℚ) (f : ℤ) (hf : ⌊q⌋ = f) (h : q - (f : ℚ) = 1/2)
    (hodd : ¬ (2 ∣ f)) : roundHalfEven q = f + 1 := by
  unfold roundHalfEven
  rw [hf, if_neg (by linarith), if_neg (by linarith), if_neg hodd]

theorem ssidx_17_0 : ssidx 17 0 = 0 := by
  unfold ssidx
  have h1 : ((0 * 17 : ℕ) : ℚ) / 32 = 0 := by norm_num
  rw [h1, roundHalfEven_of_lt 0 0 Int.floor_zero (by norm_num)]
  rfl

theorem ssidx_17_1 : ssidx 17 1 = 1 := by
  unfold ssidx
  have h1 : ((1 * 17 : ℕ) : ℚ) / 32 = 17 / 32 := by norm_num
  rw [h1, roundHalfEven_of_gt (17 / 32) 0 (by
    rw [Int.floor_eq_zero_iff]
    constructor <;> norm_num) (by norm_num)]
  rfl

theorem ssidx_16_31 : ssidx 16 31 = 16 := by
  unfold ssidx
  have h1 : ((31 * 16 : ℕ) : ℚ) / 32 = 31 / 2 := by norm_num
  rw [h1, roundHalfEven_of_half_odd (31 / 2) 15 (by
    rw [Int.floor_eq_iff]
    constructor <;> norm_num) (by norm_num) (by decide)]
  rfl

theorem pySliceAt_of_lt {α : Type} (img : Volume3D α) {x : ℤ} (h0 : 0 ≤ x)
    (h1 : x < (img.nx : ℤ)) :
    pySliceAt img x = some ⟨img.ny, img.nz, fun b c => img.val x.toNat b c⟩ := by
  unfold pySliceAt
  rw [if_pos ⟨h0, h1⟩]

theorem processSlice_eval {img : Volume3D FVal} {x : ℤ} (h0 : 0 ≤ x)
    (h1 : x < (img.nx : ℤ)) (hy : 17 ≤ img.ny) (hz : 17 ≤ img.nz) :
    processSlice img x =
      normalize ⟨32, 32, fun a b => img.val x.toNat (ssidx img.ny a) (ssidx img.nz b)⟩ := by
  unfold processSlice
  rw [pySliceAt_of_lt img h0 h1, Option.some_bind,
    resample_some_of_ge17 _ hy hz, Option.some_bind]

theorem entries_isSome_of_val {α : Type} {s : Slice2D (Option α)}
    (h : ∀ a b, (s.val a b).isSome) : ∀ x ∈ entries s, x.isSome := by
  intro x hx
  obtain ⟨b, _, c, _, rfl⟩ := mem_entries.1 hx
  exact h b c

/-- A test volume: all slices share a single bright corner voxel, so each
extracted slice is finite and non-constant. -/
def cornerVol (nx ny nz : ℕ) : Volume3D FVal :=
  ⟨nx, ny, nz, fun _ b c => some (if b = 0 ∧ c = 0 then (1 : ℚ) else 0)⟩

theorem processSlice_cornerVol {nx : ℕ} {x : ℤ} (h0 : 0 ≤ x) (h1 : x < (nx : ℤ)) :
    ∃ r, processSlice (cornerVol nx 17 17) x = some r ∧ ∀ v ∈ entries r, v.isSome := by
  have heval : processSlice (cornerVol nx 17 17) x =
      normalize ⟨32, 32, fun a b =>
        some (if ssidx 17 a = 0 ∧ ssidx 17 b = 0 then (1 : ℚ) else 0)⟩ :=
    @processSlice_eval (cornerVol nx 17 17) x h0 h1 (le_refl 17) (le_refl 17)
  have hsome : ∀ v ∈ entries (⟨32, 32, fun a b =>
      some (if ssidx 17 a = 0 ∧ ssidx 17 b = 0 then (1 : ℚ) else 0)⟩ : Slice2D FVal),
      v.isSome :=
    entries_isSome_of_val (fun a b => rfl)
  have hv00 : (⟨32, 32, fun a b =>
      some (if ssidx 17 a = 0 ∧ ssidx 17 b = 0 then (1 : ℚ) else 0)⟩ : Slice2D FVal).val 0 0 =
      some 1 := by
    simp [ssidx_17_0]
  have hv11 : (⟨32, 32, fun a b =>
      some (if ssidx 17 a = 0 ∧ ssidx 17 b = 0 then (1 : ℚ) else 0)⟩ : Slice2D FVal).val 1 1 =
      some 0 := by
    simp [ssidx_17_1]
  have hmem0 : (⟨32, 32, fun a b =>
      some (if ssidx 17 a = 0 ∧ ssidx 17 b = 0 then (1 : ℚ) else 0)⟩ : Slice2D FVal).val 0 0 ∈
      entries (⟨32, 32, fun a b =>
        some (if ssidx 17 a = 0 ∧ ssidx 17 b = 0 then (1 : ℚ) else 0)⟩ : Slice2D FVal) :=
    mem_entries.2 ⟨0, by norm_num, 0, by norm_num, rfl⟩
  have hmem1 : (⟨32, 32, fun a b =>
      some (if ssidx 17 a = 0 ∧ ssidx 17 b = 0 then (1 : ℚ) else 0)⟩ : Slice2D FVal).val 1 1 ∈
      entries (⟨32, 32, fun a b =>
        some (if ssidx 17 a = 0 ∧ ssidx 17 b = 0 then (1 : ℚ) else 0)⟩ : Slice2D FVal) :=
    mem_entries.2 ⟨1, by norm_num, 1, by norm_num, rfl⟩
  have hne : (⟨32, 32, fun a b =>
      some (if ssidx 17 a = 0 ∧ ssidx 17 b = 0 then (1 : ℚ) else 0)⟩ : Slice2D FVal).val 0 0 ≠
      (⟨32, 32, fun a b =>
        some (if ssidx 17 a = 0 ∧ ssidx 17 b = 0 then (1 : ℚ) else 0)⟩ : Slice2D FVal).val 1 1 := by
    rw [hv00, hv11]
    simp
  have hq := qvar_ne_zero hmem0 hmem1 hne hsome
  have hnorm := normalize_of_ne hsome hq
  refine ⟨_, heval.trans hnorm, ?_⟩
  refine entries_isSome_of_val ?_
  intro a b
  rfl

theorem grab_cornerVol (nx : ℕ) :
    ∃ l, grab_sagittal (cornerVol nx 17 17) (clampSlices 30 nx) = some l ∧
      allFinite l = true ∧ l.length = 2 * (clampSlices 30 nx / 2) := by
  have hbounds : ∀ a ∈ intRange ((x_mid nx : ℤ) - (window (clampSlices 30 nx) : ℤ))
      ((x_mid nx : ℤ) + (window (clampSlices 30 nx) : ℤ)), 0 ≤ a ∧ a < (nx : ℤ) := by
    intro a ha
    obtain ⟨ha1, ha2⟩ := mem_intRange.1 ha
    have hw := @window_le_x_mid 30 nx
    have hx := @x_mid_add_window_le 30 nx
    omega
  have hforall : ∀ a ∈ intRange ((x_mid nx : ℤ) - (window (clampSlices 30 nx) : ℤ))
      ((x_mid nx : ℤ) + (window (clampSlices 30 nx) : ℤ)),
      ∃ b, processSlice (cornerVol nx 17 17) a = some b := by
    intro a ha
    obtain ⟨h0, h1⟩ := hbounds a ha
    obtain ⟨r, hr, _⟩ := processSlice_cornerVol h0 h1
    exact ⟨r, hr⟩
  obtain ⟨l, hl⟩ := traverseOpt_some_of_forall hforall
  have hgrab : grab_sagittal (cornerVol nx 17 17) (clampSlices 30 nx) = some l := hl
  refine ⟨l, hgrab, ?_, grab_sagittal_length hgrab⟩
  rw [show allFinite l = l.all (fun sl => (entries sl).all (fun v => v.isSome)) from rfl,
    List.all_eq_true]
  intro sl hsl
  obtain ⟨a, ha, hfa⟩ := traverseOpt_mem_rel hl sl hsl
  obtain ⟨h0, h1⟩ := hbounds a ha
  obtain ⟨r, hr, hfin⟩ := processSlice_cornerVol h0 h1
  rw [hfa] at hr
  injection hr with h2
  rw [List.all_eq_true]
  intro v hv
  rw [← h2] at hfin
  exact hfin v hv
/-- A concrete native test volume: shape `(17, 17, 2)`, whose canonical form
is `cornerVol 2 17 17`. -/
def wnative : Volume3D FVal :=
  ⟨17, 17, 2, fun x y _ => some (if y = 16 ∧ x = 0 then (1 : ℚ) else 0)⟩

theorem wnative_canon : canonicalize wnative = cornerVol 2 17 17 := by
  unfold canonicalize revFirstTwo swapaxes02 wnative cornerVol
  simp only [Volume3D.mk.injEq]
  refine ⟨by trivial, by trivial, by trivial, ?_⟩
  funext a b c
  have h : (17 - 1 - b = 16 ∧ c = 0) ↔ (b = 0 ∧ c = 0) := by omega
  rw [if_congr h rfl rfl]

/-- A concrete test draw: in-range label 1, loadable volume `wnative`. -/
def wdraw : Draw := ⟨1, some wnative⟩

/-- The generator state after processing `wdraw` from fresh buffers with
`nb_step = 2`, `nb_mods = 2`. -/
noncomputable def wstate : GenState := genStep 2 2 (initState 2) wdraw

theorem wstate_n : wstate.n = 2 := by
  obtain ⟨data, hdata, hfin, hlen⟩ := grab_cornerVol 2
  have h1 : wstate = genStepData 2 2 (initState 2) 1 data := by
    have h0 : wstate = genStepLoaded 2 2 (initState 2) 1 wnative := rfl
    rw [h0]
    unfold genStepLoaded
    rw [wnative_canon]
    show (match grab_sagittal (cornerVol 2 17 17) (clampSlices 30 2) with
          | none => initState 2
          | some d2 => genStepData 2 2 (initState 2) 1 d2) = _
    rw [hdata]
  rw [h1]
  unfold genStepData
  rw [if_pos hfin]
  show 0 + data.length = 2
  rw [hlen]
  rfl

theorem wrun : fillLoop 2 2 (initState 2) [wdraw] = some wstate := by
  rw [fillLoop_cons_eq, if_pos (show (initState 2).n < 2 by norm_num [initState])]
  show fillLoop 2 2 wstate [] = some wstate
  rw [show fillLoop 2 2 wstate [] = (if wstate.n < 2 then none else some wstate) from rfl]
  rw [if_neg (by rw [wstate_n]; omega)]
/-- The extractor output at extent 5 under the program's request of 30
slices, used as a concrete witness. -/
noncomputable def wgrab5 : List (Slice2D (Option ℝ)) :=
  (grab_sagittal (cornerVol 5 17 17) (clampSlices 30 (cornerVol 5 17 17).nx)).getD []

theorem wgrab5_eq :
    grab_sagittal (cornerVol 5 17 17) (clampSlices 30 (cornerVol 5 17 17).nx) =
      some wgrab5 := by
  obtain ⟨l, hl, _, _⟩ := grab_cornerVol 5
  have hl2 : grab_sagittal (cornerVol 5 17 17) (clampSlices 30 (cornerVol 5 17 17).nx) =
      some l := hl
  unfold wgrab5
  rw [hl2]
  rfl

/-- C1: every batch emitted by the generator satisfies
`len(X) == len(Y) == nb_step`, and every row of `Y` is one-hot (exactly one
entry equals 1, all others 0); partial or malformed batches are never
emitted, regardless of how many draws failed while filling the batch. -/
theorem generator_batch_invariant (nb_step nb_mods : ℕ) (s0 : GenState) (ds : List Draw)
    (h0 : s0.n = 0) (s2 : GenState) (h : fillLoop nb_step nb_mods s0 ds = some s2) :
    (batchX nb_step s2).length = nb_step ∧ (batchY nb_step s2).length = nb_step ∧
    ∀ row ∈ batchY nb_step s2, isOneHot row := by
  have hok : rowsOK nb_step nb_mods ds s0 := by
    intro i hi
    rw [h0] at hi
    omega
  obtain ⟨hinv, hge⟩ := fillLoop_inv (fun d hd => hd) hok h
  refine ⟨?_, ?_, ?_⟩
  · rw [batchX, List.length_map, List.length_range]
  · rw [batchY, List.length_map, List.length_range]
  · intro row hrow
    obtain ⟨i, hi, rfl⟩ := List.mem_map.1 hrow
    rw [List.mem_range] at hi
    obtain ⟨m, hm, _, hY⟩ := hinv i (by omega)
    rw [hY]
    exact isOneHot_to_categorical hm

/-- Witness for C1: a concrete emitted batch with `nb_step = 2`. -/
theorem generator_batch_invariant_witness :
    (batchX 2 wstate).length = 2 ∧ (batchY 2 wstate).length = 2 ∧
    ∀ row ∈ batchY 2 wstate, isOneHot row :=
  generator_batch_invariant 2 2 (initState 2) [wdraw] rfl wstate wrun

/-- C2 counterexample: on an in-range slice of shape (16, 32) the gather
index `around(31/32 * 16) = around(15.5) = 16` equals the extent, an
out-of-bounds access: `resample_slice` raises an IndexError instead of
returning a (32, 32) array. -/
theorem resample_oob_at_ny16 :
    (resample_slice (⟨16, 32, fun _ _ => (0 : ℚ)⟩ : Slice2D ℚ)).isNone = true := by
  have hc : ¬ ((((List.range 32).all fun i => decide (ssidx 16 i < 16)) &&
      ((List.range 32).all fun i => decide (ssidx 32 i < 32))) = true) := by
    intro hcond
    rw [Bool.and_eq_true, List.all_eq_true, List.all_eq_true] at hcond
    have h31 := hcond.1 31 (List.mem_range.2 (by norm_num))
    rw [ssidx_16_31] at h31
    exact absurd (of_decide_eq_true h31) (by omega)
  show (if (((List.range 32).all fun i => decide (ssidx 16 i < 16)) &&
      ((List.range 32).all fun i => decide (ssidx 32 i < 32))) = true
    then some (⟨32, 32, fun a b =>
      (⟨16, 32, fun _ _ => (0 : ℚ)⟩ : Slice2D ℚ).val (ssidx 16 a) (ssidx 32 b)⟩ : Slice2D ℚ)
    else none).isNone = true
  rw [if_neg hc]
  rfl

/-- C2 (amended): for every 2-D slice with both extents at least 17,
`resample_slice` returns an array of shape exactly (32, 32) and every gather
index lies strictly below the corresponding source extent; for extents of 16
or less the top gather index reaches the extent and the gather raises. -/
theorem resample_shape_of_ge17 {α : Type} (s : Slice2D α) (h1 : 17 ≤ s.Ny)
    (h2 : 17 ≤ s.Nz) :
    (∃ t, resample_slice s = some t ∧ t.Ny = 32 ∧ t.Nz = 32) ∧
    ∀ i < 32, ssidx s.Ny i < s.Ny ∧ ssidx s.Nz i < s.Nz := by
  constructor
  · exact ⟨_, resample_some_of_ge17 s h1 h2, rfl, rfl⟩
  · intro i hi
    exact ⟨ssidx_lt h1 hi, ssidx_lt h2 hi⟩

/-- Witness for C2 (amended) at shape (17, 17). -/
theorem resample_shape_of_ge17_witness :
    (∃ t, resample_slice (⟨17, 17, fun _ _ => (0 : ℚ)⟩ : Slice2D ℚ) = some t ∧
      t.Ny = 32 ∧ t.Nz = 32) ∧
    ∀ i < 32, ssidx 17 i < 17 ∧ ssidx 17 i < 17 :=
  resample_shape_of_ge17 (⟨17, 17, fun _ _ => (0 : ℚ)⟩ : Slice2D ℚ)
    (by norm_num) (by norm_num)

/-- C3 counterexample: a loadable canonical volume of sagittal extent 5 with
the program's request of 30 slices has effective count min(30, 5) = 5, but
the extractor returns a sequence of length 4, not 5. -/
theorem extractor_length_not_effective_count :
    ¬ ((grab_sagittal (cornerVol 5 17 17) (clampSlices 30 (cornerVol 5 17 17).nx)).map
        List.length = some (clampSlices 30 (cornerVol 5 17 17).nx)) := by
  intro hcontra
  obtain ⟨l, hl, _, hlen⟩ := grab_cornerVol 5
  have h5 : (grab_sagittal (cornerVol 5 17 17) (clampSlices 30 5)).map List.length =
      some 5 := hcontra
  rw [hl] at h5
  simp only [Option.map_some', Option.some.injEq] at h5
  rw [hlen] at h5
  have h4 : 2 * (clampSlices 30 5 / 2) = 4 := rfl
  omega

/-- C3 (amended): whenever the extractor (clamp to the extent, then
`grab_sagittal`) returns at all, the returned length is
`2 * ((min n X) / 2)` — equal to the effective count `min(n, X)` when that
count is even and one less when it is odd (Python 2 floor division); it
never exceeds the requested count `n` nor the sagittal extent `X`. -/
theorem extractor_length (img : Volume3D FVal) (n : ℕ)
    (l : List (Slice2D (Option ℝ)))
    (h : grab_sagittal img (clampSlices n img.nx) = some l) :
    l.length = 2 * (min n img.nx / 2) ∧ l.length ≤ min n img.nx ∧
    l.length ≤ n ∧ l.length ≤ img.nx ∧
    (min n img.nx % 2 = 0 → l.length = min n img.nx) := by
  have hlen := grab_sagittal_length h
  rw [clampSlices_eq_min] at hlen
  refine ⟨hlen, ?_, ?_, ?_, ?_⟩ <;> omega

/-- Witness for C3 (amended) at extent 5, request 30. -/
theorem extractor_length_witness :
    wgrab5.length = 2 * (min 30 (cornerVol 5 17 17).nx / 2) ∧
    wgrab5.length ≤ min 30 (cornerVol 5 17 17).nx ∧
    wgrab5.length ≤ 30 ∧ wgrab5.length ≤ (cornerVol 5 17 17).nx ∧
    (min 30 (cornerVol 5 17 17).nx % 2 = 0 →
      wgrab5.length = min 30 (cornerVol 5 17 17).nx) :=
  extractor_length (cornerVol 5 17 17) 30 wgrab5 wgrab5_eq

/-- C4 counterexample: on the constant 2×2 slice of value 3, `normalize`
does not return a non-finite array: the zero standard deviation makes the
0/0 division raise a FloatingPointError under `np.seterr(all='raise')`, so
no output is produced at all. -/
theorem normalize_constant_input_raises_cx :
    normalize (⟨2, 2, fun _ _ => some (3 : ℚ)⟩ : Slice2D FVal) = none :=
  normalize_none_of_const (by
    intro x hx
    obtain ⟨b, _, c, _, rfl⟩ := mem_entries.1 hx
    rfl)

/-- C4 (amended): for every constant-valued slice the standard deviation is
zero, and `normalize` raises (FloatingPointError from the 0/0 division under
`np.seterr(all='raise')`) rather than returning non-finite output; the
failure is caught by the generator's per-record exception handler, not by
the downstream non-finite check.  The normalizer itself performs no
guarding. -/
theorem normalize_constant_raises (s : Slice2D FVal) (c : ℚ)
    (hconst : ∀ b < s.Ny, ∀ cc < s.Nz, s.val b cc = some c) :
    normalize s = none :=
  @normalize_none_of_const s c (by
    intro x hx
    obtain ⟨b, hb, cc, hcc, rfl⟩ := mem_entries.1 hx
    exact hconst b hb cc hcc)

/-- Witness for C4 (amended) on a constant 1×2 slice of value 7. -/
theorem normalize_constant_raises_witness :
    normalize (⟨1, 2, fun _ _ => some (7 : ℚ)⟩ : Slice2D FVal) = none :=
  normalize_constant_raises (⟨1, 2, fun _ _ => some (7 : ℚ)⟩ : Slice2D FVal) 7
    (fun b _ cc _ => rfl)

/-- C5: whenever processing a drawn record fails — the load raised,
extraction/resampling/normalization raised, or the candidate sub-batch
contains a non-finite value — the generator discards the draw atomically
(the state, i.e. fill position and both buffer prefixes, is exactly as
before the draw), moves on to the next draw, and never terminates or
propagates an exception (the step is a total function on states). -/
theorem failed_draw_discarded (nb_step nb_mods : ℕ) (s : GenState) (d : Draw)
    (hfail : d.load = none ∨
      (∃ img0, d.load = some img0 ∧
        grab_sagittal (canonicalize img0) (clampSlices 30 (canonicalize img0).nx) = none) ∨
      (∃ img0 data, d.load = some img0 ∧
        grab_sagittal (canonicalize img0) (clampSlices 30 (canonicalize img0).nx) =
          some data ∧ allFinite data = false)) :
    genStep nb_step nb_mods s d = s ∧
    ∀ ds, s.n < nb_step →
      fillLoop nb_step nb_mods s (d :: ds) = fillLoop nb_step nb_mods s ds := by
  have hstep : genStep nb_step nb_mods s d = s := by
    rcases hfail with h | ⟨img0, h1, h2⟩ | ⟨img0, data, h1, h2, h3⟩
    · exact genStep_load_none h
    · exact genStep_grab_none h1 h2
    · exact genStep_nonfinite h1 h2 h3
  exact ⟨hstep, fun ds hlt => fillLoop_skip hlt hstep ds⟩

/-- Witness for C5: a draw whose load raises, against fresh buffers. -/
theorem failed_draw_discarded_witness :
    genStep 2 2 (initState 2) ⟨0, none⟩ = initState 2 ∧
    fillLoop 2 2 (initState 2) [⟨0, none⟩] = fillLoop 2 2 (initState 2) [] := by
  have h := failed_draw_discarded 2 2 (initState 2) ⟨0, none⟩ (Or.inl rfl)
  exact ⟨h.1, h.2 [] (by norm_num [initState])⟩

/-- C6: a record whose modality label is ≥ nb_modalities contributes
nothing — the draw leaves the state untouched — and every row of an emitted
batch's `Y` is the one-hot encoding of a label `m < nb_modalities` taken
from a drawn record that passed the label-range filter. -/
theorem out_of_range_label_never_contributes (nb_step nb_mods : ℕ) :
    (∀ (s : GenState) (d : Draw), nb_mods ≤ d.mod →
      genStep nb_step nb_mods s d = s) ∧
    ∀ (s0 : GenState) (ds : List Draw) (s2 : GenState), s0.n = 0 →
      fillLoop nb_step nb_mods s0 ds = some s2 →
      ∀ i < nb_step, ∃ m, m < nb_mods ∧ (∃ d ∈ ds, d.mod = m) ∧
        s2.Y i = to_categorical m nb_mods := by
  constructor
  · exact fun s d h => genStep_filtered h
  · intro s0 ds s2 h0 h
    have hok : rowsOK nb_step nb_mods ds s0 := by
      intro i hi
      rw [h0] at hi
      omega
    obtain ⟨hinv, hge⟩ := fillLoop_inv (fun d hd => hd) hok h
    intro i hi
    exact hinv i (by omega)

/-- Witness for C6: an out-of-range draw is a no-op, and row 0 of the
concrete emitted batch is the one-hot encoding of the in-range label of the
drawn record. -/
theorem out_of_range_label_never_contributes_witness :
    genStep 2 2 (initState 2) ⟨5, none⟩ = initState 2 ∧
    ∃ m, m < 2 ∧ (∃ d ∈ [wdraw], d.mod = m) ∧ wstate.Y 0 = to_categorical m 2 := by
  have h := out_of_range_label_never_contributes 2 2
  exact ⟨h.1 (initState 2) ⟨5, none⟩ (by decide),
    h.2 (initState 2) [wdraw] wstate rfl wrun 0 (by norm_num)⟩

/-- C7: on every non-constant all-finite slice, the normalizer's output
`(slice - mean) / std` has mean exactly 0 and standard deviation exactly 1
in the exact-arithmetic embedding. -/
theorem normalize_zscore (s : Slice2D FVal) (hf : ∀ x ∈ entries s, x.isSome)
    (x y : FVal) (hx : x ∈ entries s) (hy : y ∈ entries s) (hxy : x ≠ y) :
    ∃ t, normalize s = some t ∧ rmean (unwrapR t) = 0 ∧ rstd (unwrapR t) = 1 := by
  have hv := qvar_ne_zero hx hy hxy hf
  exact ⟨_, normalize_of_ne hf hv, rmean_norm hf hv, rstd_norm hf hv⟩

/-- Witness for C7 on the non-constant slice [[0, 1]]. -/
theorem normalize_zscore_witness :
    ∃ t, normalize (⟨1, 2, fun _ c => some (if c = 0 then (0 : ℚ) else 1)⟩ : Slice2D FVal) =
      some t ∧ rmean (unwrapR t) = 0 ∧ rstd (unwrapR t) = 1 :=
  normalize_zscore (⟨1, 2, fun _ c => some (if c = 0 then (0 : ℚ) else 1)⟩ : Slice2D FVal)
    (by decide) (some 0) (some 1) (by decide) (by decide) (by decide)

/-- C8: the canonicalization first swaps axes 0 and 2 and then reverses the
first two axes of the result: for a native volume of shape (X, Y, Z) the
canonical volume has shape (Z, Y, X) and
canonical[a, b, c] = native[c, Y-1-b, Z-1-a] for all valid indices. -/
theorem canonicalize_swap_reverse {α : Type} (v : Volume3D α) :
    ((canonicalize v).nx = v.nz ∧ (canonicalize v).ny = v.ny ∧
      (canonicalize v).nz = v.nx) ∧
    ∀ a b c, a < v.nz → b < v.ny → c < v.nx →
      (canonicalize v).val a b c = v.val c (v.ny - 1 - b) (v.nz - 1 - a) :=
  ⟨canonicalize_shape v, fun a b c _ _ _ => canonicalize_val v a b c⟩

/-- Witness for C8 at the concrete volume `wnative` and indices (1, 2, 3). -/
theorem canonicalize_swap_reverse_witness :
    (canonicalize wnative).nx = wnative.nz ∧
    (canonicalize wnative).val 1 2 3 = wnative.val 3 14 0 :=
  ⟨(canonicalize_swap_reverse wnative).1.1,
    (canonicalize_swap_reverse wnative).2 1 2 3 (by decide) (by decide) (by decide)⟩

/-- C9 counterexample (to the claim's "only the upper bound mid+half can
exceed X"): under the code's Python 2 floor divisions and the clamp, there
is no extent X at all for which mid + half exceeds X. -/
theorem window_upper_never_exceeds :
    ¬ ∃ X : ℕ, 1 ≤ X ∧ X < x_mid X + window (clampSlices 30 X) := by
  rintro ⟨X, _, h⟩
  have hle := @x_mid_add_window_le 30 X
  omega

/-- C9 (amended): for every extent X ≥ 1, the extraction window's lower
bound mid - half is ≥ 0 (the negative-index case never occurs in this
program), and moreover the upper bound mid + half never exceeds X either:
with Python 2 floor division the clamped window always lies inside the
volume. -/
theorem extraction_window_in_bounds (X : ℕ) (hX : 1 ≤ X) :
    0 ≤ (x_mid X : ℤ) - (window (clampSlices 30 X) : ℤ) ∧
    x_mid X + window (clampSlices 30 X) ≤ X := by
  have h1 := @window_le_x_mid 30 X
  have h2 := @x_mid_add_window_le 30 X
  omega

/-- Witness for C9 (amended) at extent 7. -/
theorem extraction_window_in_bounds_witness :
    0 ≤ (x_mid 7 : ℤ) - (window (clampSlices 30 7) : ℤ) ∧
    x_mid 7 + window (clampSlices 30 7) ≤ 7 :=
  extraction_window_in_bounds 7 (by norm_num)

/-- C10: `resample_slice` is the identity on slices already of shape
(32, 32), and therefore idempotent: whenever it returns a slice t,
resampling t returns t again. -/
theorem resample_idempotent {α : Type} :
    (∀ s : Slice2D α, s.Ny = 32 → s.Nz = 32 → resample_slice s = some s) ∧
    ∀ s t : Slice2D α, resample_slice s = some t → resample_slice t = some t := by
  constructor
  · exact fun s h1 h2 => resample_id s h1 h2
  · intro s t h
    obtain ⟨h1, h2⟩ := resample_shape h
    exact resample_id t h1 h2

/-- Witness for C10 on a concrete 32×32 slice. -/
theorem resample_idempotent_witness :
    resample_slice (⟨32, 32, fun _ _ => (0 : ℚ)⟩ : Slice2D ℚ) =
      some (⟨32, 32, fun _ _ => (0 : ℚ)⟩ : Slice2D ℚ) :=
  (@resample_idempotent ℚ).1 (⟨32, 32, fun _ _ => (0 : ℚ)⟩ : Slice2D ℚ) rfl rfl

end MRI
